import Mathlib

/-!
Verification of the Text_CUD markup-modification engine
(`text_cud/markup_modifier.py`) against its natural-language specification.

The element tree owned by a `MarkupModifier` instance is embedded as a forest
of nodes (the synthetic `<root>` wrapper carries no attributes and is never
serialized, so the forest of its children is the observable state).  Python
string primitives used by the source (`str.strip`, `str.strip(";")`,
`str.split(";")`, `";".join`, `str.startswith`, `str.replace`, `str.lower`)
are modelled on `List Char` with Python semantics and wrapped over `String`.
-/

/-! ## Python string primitives -/

/-- Python `str.strip()` on a character list: drop whitespace at both ends. -/
def trimL (l : List Char) : List Char :=
  ((l.dropWhile Char.isWhitespace).reverse.dropWhile Char.isWhitespace).reverse

/-- Python `str.strip()`. -/
def pyTrim (s : String) : String := String.mk (trimL s.data)

/-- Python `str.strip(";")` on a character list: drop `;` at both ends. -/
def stripSemiL (l : List Char) : List Char :=
  ((l.dropWhile (· == ';')).reverse.dropWhile (· == ';')).reverse

/-- Python `str.strip(";")`: strips leading and trailing semicolons. -/
def pyStripSemis (s : String) : String := String.mk (stripSemiL s.data)

/-- Python `str.rstrip(";")` on a character list: drop `;` at the right end only. -/
def rstripSemiL (l : List Char) : List Char :=
  (l.reverse.dropWhile (· == ';')).reverse

/-- Python `str.rstrip(";")`: strips trailing semicolons only. -/
def pyRStripSemis (s : String) : String := String.mk (rstripSemiL s.data)

/-- Python `str.split(";")` on a character list; keeps empty fields,
`[] → [[]]` as in Python. -/
def splitSemiL : List Char → List (List Char)
  | [] => [[]]
  | c :: cs =>
    match splitSemiL cs with
    | [] => [[]]
    | g :: gs => if c == ';' then [] :: g :: gs else (c :: g) :: gs

/-- Python `str.split(";")`. -/
def pySplitSemi (s : String) : List String := (splitSemiL s.data).map String.mk

/-- Python `";".join(xs)`. -/
def pyJoinSemi (xs : List String) : String :=
  String.mk (List.intercalate [';'] (xs.map String.data))

/-- Python `s.startswith(pre)`. -/
def pyStartswith (s pre : String) : Bool := pre.data.isPrefixOf s.data

/-- Python `s.lower()` (ASCII case folding suffices for the tags used here). -/
def pyLower (s : String) : String := String.mk (s.data.map Char.toLower)

/-- The scan of Python `str.replace` for a non-empty pattern: at each
position, if the pattern is a prefix, emit the replacement and skip the
pattern, else keep the character and continue.  The `fuel` argument only
makes the recursion structural; every step consumes at least one character,
so `fuel = s.length` never runs out. -/
def pyReplaceGo (old new : List Char) : Nat → List Char → List Char
  | _, [] => []
  | 0, s => s
  | fuel + 1, c :: cs =>
    if old ≠ [] ∧ old.isPrefixOf (c :: cs) then
      new ++ pyReplaceGo old new fuel (cs.drop (old.length - 1))
    else
      c :: pyReplaceGo old new fuel cs

/-- Python `s.replace(old, new)`: replaces every non-overlapping occurrence
left to right; an empty pattern inserts `new` at every boundary. -/
def pyReplace (s old new : String) : String :=
  if old.data = [] then
    String.mk (new.data ++ (s.data.map (fun c => c :: new.data)).flatten)
  else
    String.mk (pyReplaceGo old.data new.data s.data.length s.data)

/-- Python `sub in s` (substring containment) on character lists. -/
def containsSub (sub : List Char) : List Char → Bool
  | [] => sub.isEmpty
  | c :: cs => sub.isPrefixOf (c :: cs) || containsSub sub cs

/-! ## Attribute maps

BeautifulSoup stores each element's attributes as a dict (unique names per
element); the embedding uses an association list with dict update semantics. -/

/-- An element's attribute map: name/value pairs, names unique per element. -/
abbrev Attrs := List (String × String)

/-- `elem.get(k)` / `elem[k]` read. -/
def getAttr (a : Attrs) (k : String) : Option String :=
  (a.find? (fun p => p.1 == k)).map (·.2)

/-- `elem.has_attr(k)`. -/
def hasAttrKey (a : Attrs) (k : String) : Bool :=
  a.any (fun p => p.1 == k)

/-- `del elem[k]`. -/
def delAttr (a : Attrs) (k : String) : Attrs :=
  a.filter (fun p => !(p.1 == k))

/-- `elem[k] = v`: overwrite in place when the name is present, append
otherwise (dict update semantics). -/
def setAttr (a : Attrs) (k v : String) : Attrs :=
  if hasAttrKey a k then a.map (fun p => if p.1 == k then (k, v) else p)
  else a ++ [(k, v)]

/-! ## The element tree -/

/-- A node of the parsed markup: an element with tag name, attributes and
children, or a text node. -/
inductive Node where
  | elem (tag : String) (attrs : Attrs) (children : List Node)
  | text (s : String)

/-- The forest of nodes under the synthetic root. -/
abbrev Forest := List Node

mutual
/-- Apply an attribute rewrite (which may consult the tag name) to every
element of a node, in document order — the shape `soup.find_all(True)`
traversals take in the source. -/
def mapAttrsN (f : String → Attrs → Attrs) : Node → Node
  | .elem tag a cs => .elem tag (f tag a) (mapAttrsF f cs)
  | .text s => .text s

/-- `mapAttrsN` over a forest. -/
def mapAttrsF (f : String → Attrs → Attrs) : List Node → List Node
  | [] => []
  | n :: ns => mapAttrsN f n :: mapAttrsF f ns
end

mutual
/-- Every element of the node satisfies `p` (on its tag and attributes). -/
def allElemsN (p : String → Attrs → Bool) : Node → Bool
  | .elem tag a cs => p tag a && allElemsF p cs
  | .text _ => true

/-- Every element of the forest satisfies `p`. -/
def allElemsF (p : String → Attrs → Bool) : List Node → Bool
  | [] => true
  | n :: ns => allElemsN p n && allElemsF p ns
end

/-- No element of the forest carries attribute `k`. -/
def noKeyF (k : String) (t : Forest) : Bool :=
  allElemsF (fun _ a => !(hasAttrKey a k)) t

/-- Every tag name of the forest is already lowercase — the invariant
guaranteed by the `html.parser` backend the source parses with. -/
def lowerTagsF (t : Forest) : Bool :=
  allElemsF (fun tag _ => pyLower tag == tag) t

/-! ## The error model -/

/-- `MarkupModificationError`: message plus optional details. -/
structure ModError where
  message : String
  details : Option String
deriving DecidableEq

/-- `str(e)` of a `MarkupModificationError`: the string the constructor
installs via `super().__init__`. -/
def ModError.str (e : ModError) : String :=
  match e.details with
  | some d => e.message ++ ": " ++ d
  | none => e.message

/-- The error `remove_attributes` raises on an empty or `None` list. -/
def errEmptyAttrs : ModError :=
  ⟨"List of attributes is empty or None, removal not possible.",
   some "Passed an empty list of attributes"⟩

/-- The error `remove_style_properties` raises on an empty list. -/
def errEmptyProps : ModError :=
  ⟨"List of properties is empty or None, removal not possible.",
   some "Passed an empty list of properties"⟩

/-- The Python `IndexError` raised by `rules["remove_attributes"][0]` on an
empty entry list, as seen by the engine's broad `except` clause. -/
def errIndex : ModError := ⟨"list index out of range", none⟩

/-- The wrapping `apply_rules_async` applies to any exception it catches. -/
def wrapAsync (e : ModError) : ModError :=
  ⟨"Error during asynchronous rule application", some e.str⟩

/-- The wrapping `apply_rules` (thread-parallel mode) applies to any
exception it catches. -/
def wrapThread (e : ModError) : ModError :=
  ⟨"Error during rule application", some e.str⟩

/-! ## Mutation operations (`MarkupModifier` methods) -/

/-- The element-local effect of `remove_attributes`: the inner
`for attr in attributes: if elem.has_attr(attr): del elem[attr]` loop. -/
def removeAttrsElem (attributes : List String) (a : Attrs) : Attrs :=
  attributes.foldl (fun acc attr => delAttr acc attr) a

/-- `MarkupModifier.remove_attributes`.  The argument is `Option`al because
rule sets may carry `attributes: null`; both `None` and `[]` fail the
`if not attributes` precondition before any element is visited. -/
def remove_attributes (attributes : Option (List String)) (t : Forest) :
    Except ModError Forest :=
  match attributes with
  | none => .error errEmptyAttrs
  | some [] => .error errEmptyAttrs
  | some attrs => .ok (mapAttrsF (fun _ a => removeAttrsElem attrs a) t)

/-- The filter kept by `remove_style_properties`: a declaration survives when
its stripped text starts with none of the property names. -/
def styleKeepPred (properties : List String) (s : String) : Bool :=
  !(properties.any (fun prop => pyStartswith (pyTrim s) prop))

/-- The `updated_style` expression of `remove_style_properties`:
`";".join(s.strip() for s in style.split(";") if keep s).strip(";")`. -/
def updatedStyle (properties : List String) (original : String) : String :=
  pyStripSemis (pyJoinSemi
    (((pySplitSemi original).filter (styleKeepPred properties)).map pyTrim))

/-- The element-local effect of `remove_style_properties`. -/
def removeStyleElem (properties : List String) (a : Attrs) : Attrs :=
  match getAttr a "style" with
  | none => a
  | some st =>
    let u := updatedStyle properties st
    if u == "" then delAttr a "style" else setAttr a "style" u

/-- `MarkupModifier.remove_style_properties`. -/
def remove_style_properties (properties : List String) (t : Forest) :
    Except ModError Forest :=
  match properties with
  | [] => .error errEmptyProps
  | _ => .ok (mapAttrsF (fun _ a => removeStyleElem properties a) t)

/-- The element-local effect of `replace_attribute_value`: skip elements
lacking the attribute (the `find_all(attrs={attribute: True})` prefilter) and
elements whose value is falsy (`if current_value:`); otherwise replace
`old_value.strip(";")` by `new_value.strip(";")` and write back only on
change. -/
def replaceAttrElem (attr old_value new_value : String) (a : Attrs) :
    Attrs :=
  match getAttr a attr with
  | none => a
  | some cur =>
    if cur == "" then a
    else
      let upd := pyReplace cur (pyStripSemis old_value) (pyStripSemis new_value)
      if upd != cur then setAttr a attr upd else a

/-- `MarkupModifier.replace_attribute_value` (never raises in this model:
all attribute values are strings). -/
def replace_attribute_value (attr old_value new_value : String)
    (t : Forest) : Forest :=
  mapAttrsF (fun _ a => replaceAttrElem attr old_value new_value a) t

/-- `MarkupModifier.add_attribute`: `find_all(tag.lower())` then
`elem[attribute] = value` on every hit. -/
def add_attribute (tag attr value : String) (t : Forest) : Forest :=
  mapAttrsF
    (fun etag a => if etag == pyLower tag then setAttr a attr value else a)
    t

/-! ## Rule sets and the application engines -/

/-- One entry of the `remove_attributes` category; `attributes` is `none`
when the JSON field is `null`. -/
structure RemoveEntry where
  attributes : Option (List String)
deriving DecidableEq

/-- One entry of the `replace_attributes` category (the `attribute` field is
spelled `attr` because `attribute` is reserved in Lean). -/
structure ReplaceEntry where
  attr : String
  old_value : String
  new_value : String
deriving DecidableEq

/-- One entry of the `add_attributes` category. -/
structure AddEntry where
  tag : String
  attr : String
  value : String
deriving DecidableEq

/-- A rule set: each recognized key is either absent (`none`) or holds an
ordered list of entries. -/
structure Rules where
  remove_attributes : Option (List RemoveEntry)
  replace_attributes : Option (List ReplaceEntry)
  add_attributes : Option (List AddEntry)
deriving DecidableEq

/-- `MarkupModifier.apply_rules_async`: the three categories are awaited
strictly sequentially in category order; `rules["remove_attributes"][0]`
raises `IndexError` on an empty entry list; every caught exception is
rewrapped with the mode's own message. -/
def applyRulesAsync (rules : Rules) (t : Forest) : Except ModError Forest :=
  (do
    let t1 ← match rules.remove_attributes with
      | none => pure t
      | some [] => Except.error errIndex
      | some (e :: _) => remove_attributes e.attributes t
    let t2 := match rules.replace_attributes with
      | none => t1
      | some entries =>
        entries.foldl
          (fun acc (r : ReplaceEntry) =>
            replace_attribute_value r.attr r.old_value r.new_value acc)
          t1
    let t3 := match rules.add_attributes with
      | none => t2
      | some entries =>
        entries.foldl
          (fun acc (r : AddEntry) => add_attribute r.tag r.attr r.value acc) t2
    pure t3).mapError wrapAsync

/-- A mutation operation derived from one rule-set entry — exactly the
calls both engines dispatch (one remove using only the first entry, one
replace per entry, one add per entry). -/
inductive Op where
  | remove (attributes : Option (List String))
  | replace (attr old_value new_value : String)
  | add (tag attr value : String)
deriving DecidableEq

/-- Whether an operation is the remove-attributes call. -/
def Op.isRemoveOp : Op → Bool
  | .remove _ => true
  | _ => false

/-- Run one derived operation on the forest. -/
def runOp : Op → Forest → Except ModError Forest
  | .remove attrs, t => remove_attributes attrs t
  | .replace a o n, t => .ok (replace_attribute_value a o n t)
  | .add tg a v, t => .ok (add_attribute tg a v t)

/-- The operations an `apply_rules` / `apply_rules_async` invocation derives
from a rule set, in category order; fails with the Python `IndexError` when
`remove_attributes` maps to an empty entry list (`rules["remove_attributes"][0]`). -/
def deriveOps (rules : Rules) : Except ModError (List Op) := do
  let rem ← match rules.remove_attributes with
    | none => pure []
    | some [] => Except.error errIndex
    | some (e :: _) => pure [Op.remove e.attributes]
  let rep := (rules.replace_attributes.getD []).map
    (fun r => Op.replace r.attr r.old_value r.new_value)
  let add := (rules.add_attributes.getD []).map
    (fun r => Op.add r.tag r.attr r.value)
  pure (rem ++ rep ++ add)

/-- Sequential execution of a list of derived operations. -/
def runSeqOps (ops : List Op) (t : Forest) : Except ModError Forest :=
  ops.foldlM (fun t op => runOp op t) t

/-- Purely sequential application of a rule set: derive the operations and
run them one after the other, in category order, with no mode-specific error
rewrapping (the reference semantics of the blocking direct-call mode). -/
def applyRulesSeq (rules : Rules) (t : Forest) : Except ModError Forest :=
  (deriveOps rules).bind (fun ops => runSeqOps ops t)

/-- Whether a derived operation raises (every failure here is a precondition
check performed before any element is visited). -/
def opFails : Op → Option ModError
  | .remove none => some errEmptyAttrs
  | .remove (some []) => some errEmptyAttrs
  | _ => none

/-- Run one operation, keeping the forest unchanged when the operation
raises (a raising operation has visited no element). -/
def runOpTotal (t : Forest) (op : Op) : Forest :=
  match runOp op t with
  | .ok t2 => t2
  | .error _ => t

/-- The observable outcomes of `MarkupModifier.apply_rules` (thread-parallel
mode): the derived operations are submitted to a pool and all run to
completion in some interleaving; intra-operation interleavings are beyond a
sequential model, so the outcome set closes over every order (permutation)
of the derived operations.  If derivation itself raises (the `[0]` indexing),
nothing is submitted; if any submitted operation raises, the first observed
failure is rewrapped while sibling operations still run. -/
inductive ThreadedOutcome (rules : Rules) (t : Forest) :
    Except ModError Forest → Prop where
  | deriveFail (e : ModError) :
      deriveOps rules = .error e →
      ThreadedOutcome rules t (.error (wrapThread e))
  | run (ops perm : List Op) :
      deriveOps rules = .ok ops →
      perm.Perm ops →
      (∀ op ∈ ops, opFails op = none) →
      ThreadedOutcome rules t (.ok (perm.foldl runOpTotal t))
  | runFail (ops perm : List Op) (op : Op) (e : ModError) :
      deriveOps rules = .ok ops →
      perm.Perm ops →
      op ∈ ops →
      opFails op = some e →
      ThreadedOutcome rules t (.error (wrapThread e))

/-- The disjointness hypothesis of the specification: the three rule
categories touch pairwise disjoint attribute names. -/
def rulesCategoriesDisjoint (rules : Rules) : Prop :=
  let remAttrs : List String := match rules.remove_attributes with
    | some (e :: _) => e.attributes.getD []
    | _ => []
  let repAttrs := (rules.replace_attributes.getD []).map (·.attr)
  let addAttrs := (rules.add_attributes.getD []).map (·.attr)
  (∀ x ∈ remAttrs, x ∉ repAttrs ∧ x ∉ addAttrs) ∧ ∀ x ∈ repAttrs, x ∉ addAttrs

mutual
/-- Over two same-shaped nodes: whenever an element of the first carries
attribute `x`, the corresponding element of the second does too. -/
def keyPresN (x : String) : Node → Node → Bool
  | .elem _ a cs, .elem _ a2 cs2 =>
    (!(hasAttrKey a x) || hasAttrKey a2 x) && keyPresF x cs cs2
  | .text _, .text _ => true
  | _, _ => false

/-- `keyPresN` over same-shaped forests. -/
def keyPresF (x : String) : List Node → List Node → Bool
  | [], [] => true
  | n :: ns, m :: ms => keyPresN x n m && keyPresF x ns ms
  | _, _ => false
end

/-- Operation `op` never loses attribute `x` from any element: whenever it
succeeds, the result forest element-wise keeps every occurrence of `x`. -/
def opPreservesKey (x : String) (op : Op) : Prop :=
  ∀ u t2, runOp op u = Except.ok t2 → keyPresF x u t2 = true

/-- The per-element style rewrite claim C3 literally describes: the kept
declarations are rejoined unchanged (no whitespace trimming) and only
trailing semicolons are trimmed from the rejoined string. -/
def updatedStyleClaimed (properties : List String) (original : String) :
    String :=
  pyRStripSemis (pyJoinSemi
    ((pySplitSemi original).filter (styleKeepPred properties)))

/-- `removeStyleElem` as claim C3 literally describes it. -/
def removeStyleElemClaimed (properties : List String) (a : Attrs) : Attrs :=
  match getAttr a "style" with
  | none => a
  | some st =>
    let u := updatedStyleClaimed properties st
    if u == "" then delAttr a "style" else setAttr a "style" u

/-- The per-element style rewrite of claim C3 as amended: each kept
declaration is whitespace-trimmed before rejoining, and both leading and
trailing semicolons are stripped from the rejoined string. -/
def updatedStyleAmended (properties : List String) (original : String) :
    String :=
  pyStripSemis (pyJoinSemi ((pySplitSemi original).filterMap
    (fun s => if styleKeepPred properties s then some (pyTrim s) else none)))

/-- `removeStyleElem` as the amended claim C3 describes it. -/
def removeStyleElemAmended (properties : List String) (a : Attrs) : Attrs :=
  match getAttr a "style" with
  | none => a
  | some st =>
    let u := updatedStyleAmended properties st
    if u == "" then delAttr a "style" else setAttr a "style" u

/-- The per-element update claim C4 literally describes: the old and new
values are trimmed of trailing semicolons only, and every element possessing
the attribute is processed (no emptiness guard on the current value). -/
def replaceAttrElemClaimed (atr o n : String) (a : Attrs) : Attrs :=
  match getAttr a atr with
  | none => a
  | some cur =>
    let upd := pyReplace cur (pyRStripSemis o) (pyRStripSemis n)
    if upd != cur then setAttr a atr upd else a

/-- The per-element update of claim C4 as amended: elements lacking the
attribute, elements whose current value is empty, and elements whose value
does not contain the trimmed old value as a substring are left alone;
otherwise every occurrence of the old value (trimmed of leading and trailing
semicolons) is replaced by the trimmed new value, written back only when the
value actually changes. -/
def replaceAttrElemAmended (atr o n : String) (a : Attrs) : Attrs :=
  match getAttr a atr with
  | none => a
  | some cur =>
    if cur == "" then a
    else if !(containsSub (pyStripSemis o).data cur.data) then a
    else
      let upd := pyReplace cur (pyStripSemis o) (pyStripSemis n)
      if upd != cur then setAttr a atr upd else a

/-! ## Lemmas about attribute maps -/

theorem mapSet_of_not_hasAttrKey (a : Attrs) (k v : String)
    (h : hasAttrKey a k = false) :
    a.map (fun p => if p.1 == k then (k, v) else p) = a := by
  induction a with
  | nil => rfl
  | cons p rest ih =>
    simp only [hasAttrKey, List.any_cons, Bool.or_eq_false_iff] at h
    have h2 : hasAttrKey rest k = false := h.2
    have hne : ¬ ((p.1 == k) = true) := by simp [h.1]
    rw [List.map_cons, if_neg hne, ih h2]

theorem getAttr_append_self (a : Attrs) (k v : String)
    (h : hasAttrKey a k = false) :
    getAttr (a ++ [(k, v)]) k = some v := by
  induction a with
  | nil => simp [getAttr, List.find?]
  | cons p rest ih =>
    simp only [hasAttrKey, List.any_cons, Bool.or_eq_false_iff] at h
    have h2 : hasAttrKey rest k = false := h.2
    have := ih h2
    simp only [getAttr, List.cons_append, List.find?, h.1] at this ⊢
    exact this

theorem getAttr_mapSet_self (a : Attrs) (k v : String)
    (h : hasAttrKey a k = true) :
    getAttr (a.map (fun p => if p.1 == k then (k, v) else p)) k = some v := by
  induction a with
  | nil => simp [hasAttrKey] at h
  | cons p rest ih =>
    by_cases hp : p.1 == k
    · simp [getAttr, List.find?, hp]
    · have h2 : hasAttrKey rest k = true := by
        simpa [hasAttrKey, List.any_cons, hp] using h
      simpa [getAttr, List.find?, hp] using ih h2

theorem getAttr_setAttr_self (a : Attrs) (k v : String) :
    getAttr (setAttr a k v) k = some v := by
  unfold setAttr
  by_cases h : hasAttrKey a k
  · rw [if_pos h]
    exact getAttr_mapSet_self a k v h
  · rw [if_neg h]
    exact getAttr_append_self a k v (by simpa using h)

theorem hasAttrKey_mapSet (a : Attrs) (k v x : String) :
    hasAttrKey (a.map (fun p => if p.1 == k then (k, v) else p)) x =
      hasAttrKey a x := by
  induction a with
  | nil => rfl
  | cons p rest ih =>
    by_cases hp : p.1 == k
    · have hpk : p.1 = k := by simpa using hp
      simp only [List.map_cons, hasAttrKey, List.any_cons] at ih ⊢
      rw [if_pos hp, ih]
      simp [hpk]
    · simp only [List.map_cons, hasAttrKey, List.any_cons] at ih ⊢
      rw [if_neg hp, ih]

theorem hasAttrKey_setAttr (a : Attrs) (k v x : String) :
    hasAttrKey (setAttr a k v) x = (hasAttrKey a x || (k == x)) := by
  unfold setAttr
  by_cases h : hasAttrKey a k
  · rw [if_pos h, hasAttrKey_mapSet]
    cases hkx : k == x
    · simp
    · have hk : k = x := by simpa using hkx
      subst hk
      simp [h]
  · rw [if_neg h]
    simp [hasAttrKey, List.any_append]

theorem setAttr_setAttr (a : Attrs) (k v1 v2 : String) :
    setAttr (setAttr a k v1) k v2 = setAttr a k v2 := by
  by_cases h : hasAttrKey a k
  · have h1 : setAttr a k v1 = a.map (fun p => if p.1 == k then (k, v1) else p) := by
      unfold setAttr; rw [if_pos h]
    have h2 : hasAttrKey (setAttr a k v1) k = true := by
      rw [hasAttrKey_setAttr]; simp
    rw [h1] at h2 ⊢
    unfold setAttr
    rw [if_pos h2, if_pos h, List.map_map]
    refine congrArg (fun f => List.map f a) ?_
    funext p
    by_cases hp : (p.1 == k) = true
    · simp only [Function.comp_apply, if_pos hp]
      simp
    · simp only [Function.comp_apply, if_neg hp]
  · have h1 : setAttr a k v1 = a ++ [(k, v1)] := by
      unfold setAttr; rw [if_neg h]
    have h2 : hasAttrKey (a ++ [(k, v1)]) k = true := by
      simp [hasAttrKey, List.any_append]
    rw [h1]
    unfold setAttr
    rw [if_pos h2, if_neg h, List.map_append,
        mapSet_of_not_hasAttrKey a k v2 (by simpa using h)]
    simp

theorem removeAttrsElem_eq_filter (l : List String) (a : Attrs) :
    removeAttrsElem l a =
      a.filter (fun p => !(l.any (fun k => p.1 == k))) := by
  induction l generalizing a with
  | nil => simp [removeAttrsElem]
  | cons k ks ih =>
    have step : removeAttrsElem (k :: ks) a = removeAttrsElem ks (delAttr a k) := rfl
    rw [step, ih, delAttr, List.filter_filter]
    refine List.filter_congr ?_
    intro p _
    simp [List.any_cons, Bool.not_or, Bool.and_comm]

theorem hasAttrKey_removeAttrsElem_of_mem (l : List String) (a : Attrs)
    (x : String) (hx : x ∈ l) :
    hasAttrKey (removeAttrsElem l a) x = false := by
  rw [removeAttrsElem_eq_filter]
  unfold hasAttrKey
  rw [List.any_eq_false]
  intro p hp
  rcases List.mem_filter.mp hp with ⟨-, hpred⟩
  rw [Bool.not_eq_true'] at hpred
  rw [List.any_eq_false] at hpred
  exact hpred x hx

theorem hasAttrKey_removeAttrsElem_of_not_mem (l : List String) (a : Attrs)
    (x : String) (hx : x ∉ l) :
    hasAttrKey (removeAttrsElem l a) x = hasAttrKey a x := by
  rw [removeAttrsElem_eq_filter]
  induction a with
  | nil => rfl
  | cons p rest ih =>
    by_cases hpx : (p.1 == x) = true
    · have hpx2 : p.1 = x := by simpa using hpx
      have hany : (l.any fun k => p.1 == k) = false := by
        rw [List.any_eq_false]
        intro k hk
        rw [hpx2]
        simp only [beq_iff_eq]
        exact fun (he : x = k) => hx (by rw [he]; exact hk)
      simp [List.filter_cons, hany, hasAttrKey, List.any_cons, hpx]
    · cases hkeep : (l.any fun k => p.1 == k) with
      | false =>
        simp only [hasAttrKey] at ih
        simp [List.filter_cons, hkeep, hasAttrKey, List.any_cons, hpx, ih]
      | true =>
        simp only [hasAttrKey] at ih
        simp [List.filter_cons, hkeep, hasAttrKey, List.any_cons, hpx, ih]

theorem removeAttrsElem_idem (l : List String) (a : Attrs) :
    removeAttrsElem l (removeAttrsElem l a) = removeAttrsElem l a := by
  rw [removeAttrsElem_eq_filter, removeAttrsElem_eq_filter, List.filter_filter]
  refine List.filter_congr ?_
  intro p _
  exact Bool.and_self _

theorem hasAttrKey_replaceAttrElem (atr o n x : String) (a : Attrs)
    (h : hasAttrKey a x = true) :
    hasAttrKey (replaceAttrElem atr o n a) x = true := by
  unfold replaceAttrElem
  split
  · exact h
  · split
    · exact h
    · dsimp only
      split
      · rw [hasAttrKey_setAttr, h]
        rfl
      · exact h

/-! ## Lemmas about tree traversals -/

mutual
theorem mapAttrsN_congr (f g : String → Attrs → Attrs)
    (h : ∀ tg a, f tg a = g tg a) : ∀ n, mapAttrsN f n = mapAttrsN g n
  | .elem tg a cs => by
    simp only [mapAttrsN, h, mapAttrsF_congr f g h cs]
  | .text s => rfl

theorem mapAttrsF_congr (f g : String → Attrs → Attrs)
    (h : ∀ tg a, f tg a = g tg a) : ∀ ns, mapAttrsF f ns = mapAttrsF g ns
  | [] => rfl
  | n :: ns => by
    simp only [mapAttrsF, mapAttrsN_congr f g h n, mapAttrsF_congr f g h ns]
end

mutual
theorem mapAttrsN_comp (f g : String → Attrs → Attrs) :
    ∀ n, mapAttrsN g (mapAttrsN f n) = mapAttrsN (fun tg a => g tg (f tg a)) n
  | .elem tg a cs => by
    simp only [mapAttrsN, mapAttrsF_comp f g cs]
  | .text s => rfl

theorem mapAttrsF_comp (f g : String → Attrs → Attrs) :
    ∀ ns, mapAttrsF g (mapAttrsF f ns) = mapAttrsF (fun tg a => g tg (f tg a)) ns
  | [] => rfl
  | n :: ns => by
    simp only [mapAttrsF, mapAttrsN_comp f g n, mapAttrsF_comp f g ns]
end

mutual
theorem allElemsN_mapAttrsN (r q : String → Attrs → Bool)
    (f : String → Attrs → Attrs)
    (himp : ∀ tg a, r tg a = true → q tg (f tg a) = true) :
    ∀ n, allElemsN r n = true → allElemsN q (mapAttrsN f n) = true
  | .elem tg a cs, h => by
    simp only [allElemsN, mapAttrsN, Bool.and_eq_true] at h ⊢
    exact ⟨himp tg a h.1, allElemsF_mapAttrsF r q f himp cs h.2⟩
  | .text s, _ => rfl

theorem allElemsF_mapAttrsF (r q : String → Attrs → Bool)
    (f : String → Attrs → Attrs)
    (himp : ∀ tg a, r tg a = true → q tg (f tg a) = true) :
    ∀ ns, allElemsF r ns = true → allElemsF q (mapAttrsF f ns) = true
  | [], _ => rfl
  | n :: ns, h => by
    simp only [allElemsF, mapAttrsF, Bool.and_eq_true] at h ⊢
    exact ⟨allElemsN_mapAttrsN r q f himp n h.1,
           allElemsF_mapAttrsF r q f himp ns h.2⟩
end

mutual
theorem allElemsN_true : ∀ n, allElemsN (fun _ _ => true) n = true
  | .elem tg a cs => by simp [allElemsN, allElemsF_true cs]
  | .text s => rfl

theorem allElemsF_true : ∀ ns, allElemsF (fun _ _ => true) ns = true
  | [] => rfl
  | n :: ns => by simp [allElemsF, allElemsN_true n, allElemsF_true ns]
end

theorem allElemsF_map (q : String → Attrs → Bool) (f : String → Attrs → Attrs)
    (h : ∀ tg a, q tg (f tg a) = true) (t : Forest) :
    allElemsF q (mapAttrsF f t) = true :=
  allElemsF_mapAttrsF (fun _ _ => true) q f (fun tg a _ => h tg a) t
    (allElemsF_true t)


mutual
theorem keyPresN_refl (x : String) : ∀ n, keyPresN x n n = true
  | .elem tg a cs => by simp [keyPresN, keyPresF_refl x cs]
  | .text s => rfl

theorem keyPresF_refl (x : String) : ∀ ns, keyPresF x ns ns = true
  | [] => rfl
  | n :: ns => by simp [keyPresF, keyPresN_refl x n, keyPresF_refl x ns]
end

mutual
theorem keyPresN_trans (x : String) :
    ∀ n m o, keyPresN x n m = true → keyPresN x m o = true →
      keyPresN x n o = true
  | .elem tg a cs, m, o, h1, h2 => by
    cases m with
    | text s => simp [keyPresN] at h1
    | elem tg2 a2 cs2 =>
      cases o with
      | text s => simp [keyPresN] at h2
      | elem tg3 a3 cs3 =>
        simp only [keyPresN, Bool.and_eq_true] at h1 h2 ⊢
        refine ⟨?_, keyPresF_trans x cs cs2 cs3 h1.2 h2.2⟩
        cases hk : hasAttrKey a x
        · simp
        · have hb1 := h1.1
          rw [hk] at hb1
          simp only [Bool.not_true, Bool.false_or] at hb1
          have hb2 := h2.1
          rw [hb1] at hb2
          simp only [Bool.not_true, Bool.false_or] at hb2
          simp [hb2]
  | .text s, m, o, h1, h2 => by
    cases m with
    | elem tg2 a2 cs2 => simp [keyPresN] at h1
    | text s2 =>
      cases o with
      | elem tg3 a3 cs3 => simp [keyPresN] at h2
      | text s3 => rfl

theorem keyPresF_trans (x : String) :
    ∀ ns ms os, keyPresF x ns ms = true → keyPresF x ms os = true →
      keyPresF x ns os = true
  | [], ms, os, h1, h2 => by
    cases ms with
    | cons m ms2 => simp [keyPresF] at h1
    | nil =>
      cases os with
      | cons o os2 => simp [keyPresF] at h2
      | nil => rfl
  | n :: ns, ms, os, h1, h2 => by
    cases ms with
    | nil => simp [keyPresF] at h1
    | cons m ms2 =>
      cases os with
      | nil => simp [keyPresF] at h2
      | cons o os2 =>
        simp only [keyPresF, Bool.and_eq_true] at h1 h2 ⊢
        exact ⟨keyPresN_trans x n m o h1.1 h2.1,
               keyPresF_trans x ns ms2 os2 h1.2 h2.2⟩
end

mutual
theorem keyPresN_map (x : String) (f : String → Attrs → Attrs)
    (h : ∀ tg a, hasAttrKey a x = true → hasAttrKey (f tg a) x = true) :
    ∀ n, keyPresN x n (mapAttrsN f n) = true
  | .elem tg a cs => by
    simp only [mapAttrsN, keyPresN, Bool.and_eq_true]
    refine ⟨?_, keyPresF_map x f h cs⟩
    cases hk : hasAttrKey a x
    · simp
    · simp [h tg a hk]
  | .text s => rfl

theorem keyPresF_map (x : String) (f : String → Attrs → Attrs)
    (h : ∀ tg a, hasAttrKey a x = true → hasAttrKey (f tg a) x = true) :
    ∀ ns, keyPresF x ns (mapAttrsF f ns) = true
  | [] => rfl
  | n :: ns => by
    simp only [mapAttrsF, keyPresF, Bool.and_eq_true]
    exact ⟨keyPresN_map x f h n, keyPresF_map x f h ns⟩
end

/-! ## Key preservation by each mutation operation -/

theorem keyPres_replace_attribute_value (atr o n x : String) (t : Forest) :
    keyPresF x t (replace_attribute_value atr o n t) = true :=
  keyPresF_map x _
    (fun _ a ha => hasAttrKey_replaceAttrElem atr o n x a ha) t

theorem keyPres_add_attribute (tg atr v x : String) (t : Forest) :
    keyPresF x t (add_attribute tg atr v t) = true := by
  refine keyPresF_map x _ ?_ t
  intro etag a ha
  by_cases he : (etag == pyLower tg) = true
  · rw [if_pos he, hasAttrKey_setAttr, ha]
    rfl
  · rw [if_neg he]
    exact ha

theorem keyPres_removeAttrs (l : List String) (x : String) (hx : x ∉ l)
    (t : Forest) :
    keyPresF x t (mapAttrsF (fun _ a => removeAttrsElem l a) t) = true := by
  refine keyPresF_map x _ ?_ t
  intro _ a ha
  rw [hasAttrKey_removeAttrsElem_of_not_mem l a x hx]
  exact ha

theorem keyPres_foldl_replace (x : String) (entries : List ReplaceEntry) :
    ∀ t : Forest,
      keyPresF x t
        (entries.foldl
          (fun acc r =>
            replace_attribute_value r.attr r.old_value r.new_value acc) t) =
        true := by
  induction entries with
  | nil => intro t; exact keyPresF_refl x t
  | cons r rs ih =>
    intro t
    rw [List.foldl_cons]
    exact keyPresF_trans x t _ _
      (keyPres_replace_attribute_value r.attr r.old_value r.new_value x t)
      (ih _)

theorem keyPres_foldl_add (x : String) (entries : List AddEntry) :
    ∀ t : Forest,
      keyPresF x t
        (entries.foldl (fun acc r => add_attribute r.tag r.attr r.value acc)
          t) = true := by
  induction entries with
  | nil => intro t; exact keyPresF_refl x t
  | cons r rs ih =>
    intro t
    rw [List.foldl_cons]
    exact keyPresF_trans x t _ _
      (keyPres_add_attribute r.tag r.attr r.value x t)
      (ih _)

/-! ## Engine decomposition lemmas -/

theorem runSeqOps_replaceOps (entries : List ReplaceEntry) (t : Forest) :
    runSeqOps
      (entries.map (fun r => Op.replace r.attr r.old_value r.new_value)) t =
    .ok (entries.foldl
      (fun acc r => replace_attribute_value r.attr r.old_value r.new_value acc)
      t) := by
  induction entries generalizing t with
  | nil => rfl
  | cons r rs ih =>
    rw [List.map_cons, List.foldl_cons]
    have h1 : runSeqOps
        (Op.replace r.attr r.old_value r.new_value ::
          rs.map (fun r => Op.replace r.attr r.old_value r.new_value)) t =
      runSeqOps (rs.map (fun r => Op.replace r.attr r.old_value r.new_value))
        (replace_attribute_value r.attr r.old_value r.new_value t) := rfl
    rw [h1]
    exact ih _

theorem runSeqOps_addOps (entries : List AddEntry) (t : Forest) :
    runSeqOps (entries.map (fun r => Op.add r.tag r.attr r.value)) t =
    .ok (entries.foldl (fun acc r => add_attribute r.tag r.attr r.value acc)
      t) := by
  induction entries generalizing t with
  | nil => rfl
  | cons r rs ih =>
    rw [List.map_cons, List.foldl_cons]
    have h1 : runSeqOps
        (Op.add r.tag r.attr r.value ::
          rs.map (fun r => Op.add r.tag r.attr r.value)) t =
      runSeqOps (rs.map (fun r => Op.add r.tag r.attr r.value))
        (add_attribute r.tag r.attr r.value t) := rfl
    rw [h1]
    exact ih _

theorem runSeqOps_append (l1 l2 : List Op) (t : Forest) :
    runSeqOps (l1 ++ l2) t =
      (runSeqOps l1 t).bind (fun t2 => runSeqOps l2 t2) := by
  induction l1 generalizing t with
  | nil =>
    cases runSeqOps l2 t <;> rfl
  | cons op ops ih =>
    rw [List.cons_append]
    show (runOp op t).bind _ = ((runOp op t).bind _).bind _
    cases runOp op t with
    | error e => rfl
    | ok t2 =>
      show runSeqOps (ops ++ l2) t2 = _
      exact ih t2

theorem async_tail_eq (rep : Option (List ReplaceEntry))
    (add : Option (List AddEntry)) (t1 : Forest) :
    Except.mapError wrapAsync
      (runSeqOps
        ((rep.getD []).map
            (fun r => Op.replace r.attr r.old_value r.new_value) ++
          (add.getD []).map (fun r => Op.add r.tag r.attr r.value)) t1) =
    Except.ok
      ((add.getD []).foldl (fun acc r => add_attribute r.tag r.attr r.value acc)
        ((rep.getD []).foldl
          (fun acc r =>
            replace_attribute_value r.attr r.old_value r.new_value acc) t1)) := by
  rw [runSeqOps_append, runSeqOps_replaceOps]
  show Except.mapError wrapAsync
      (runSeqOps ((add.getD []).map (fun r => Op.add r.tag r.attr r.value))
        ((rep.getD []).foldl
          (fun acc r =>
            replace_attribute_value r.attr r.old_value r.new_value acc) t1)) =
    Except.ok
      ((add.getD []).foldl (fun acc r => add_attribute r.tag r.attr r.value acc)
        ((rep.getD []).foldl
          (fun acc r =>
            replace_attribute_value r.attr r.old_value r.new_value acc) t1))
  rw [runSeqOps_addOps]
  rfl

/-- Both engines dispatch the same derived operations; awaiting them
sequentially (the asynchronous mode) coincides with the purely sequential
reference semantics, up to the mode's error rewrapping. -/
theorem applyRulesAsync_eq_seq (rules : Rules) (t : Forest) :
    applyRulesAsync rules t =
      Except.mapError wrapAsync (applyRulesSeq rules t) := by
  obtain ⟨rem, rep, add⟩ := rules
  cases rem with
  | none =>
    cases rep with
    | none =>
      cases add with
      | none => exact (async_tail_eq none none t).symm
      | some addE => exact (async_tail_eq none (some addE) t).symm
    | some repE =>
      cases add with
      | none => exact (async_tail_eq (some repE) none t).symm
      | some addE => exact (async_tail_eq (some repE) (some addE) t).symm
  | some entries =>
    cases entries with
    | nil => rfl
    | cons e rest =>
      obtain ⟨eatt⟩ := e
      cases eatt with
      | none => rfl
      | some l =>
        cases l with
        | nil => rfl
        | cons a as =>
          cases rep with
          | none =>
            cases add with
            | none =>
              exact (async_tail_eq none none
                (mapAttrsF (fun _ a2 => removeAttrsElem (a :: as) a2) t)).symm
            | some addE =>
              exact (async_tail_eq none (some addE)
                (mapAttrsF (fun _ a2 => removeAttrsElem (a :: as) a2) t)).symm
          | some repE =>
            cases add with
            | none =>
              exact (async_tail_eq (some repE) none
                (mapAttrsF (fun _ a2 => removeAttrsElem (a :: as) a2) t)).symm
            | some addE =>
              exact (async_tail_eq (some repE) (some addE)
                (mapAttrsF (fun _ a2 => removeAttrsElem (a :: as) a2) t)).symm

/-! ## Lemmas about pyReplace and the style rewrite -/

theorem containsSub_nil (s : List Char) : containsSub [] s = true := by
  cases s with
  | nil => rfl
  | cons c cs => simp [containsSub, List.isPrefixOf]

theorem pyReplaceGo_of_not_contains (old new : List Char) :
    ∀ (fuel : Nat) (s : List Char), containsSub old s = false →
      pyReplaceGo old new fuel s = s
  | fuel, [], _ => by cases fuel <;> rfl
  | 0, _ :: _, _ => rfl
  | fuel + 1, c :: cs, h => by
    simp only [containsSub, Bool.or_eq_false_iff] at h
    have hcond : ¬(old ≠ [] ∧ old.isPrefixOf (c :: cs) = true) := by
      rintro ⟨-, hp⟩
      rw [h.1] at hp
      exact Bool.noConfusion hp
    show (if old ≠ [] ∧ old.isPrefixOf (c :: cs) = true then
        new ++ pyReplaceGo old new fuel (cs.drop (old.length - 1))
      else c :: pyReplaceGo old new fuel cs) = c :: cs
    rw [if_neg hcond, pyReplaceGo_of_not_contains old new fuel cs h.2]

theorem pyReplace_of_not_contains (cur o n : String)
    (h : containsSub o.data cur.data = false) : pyReplace cur o n = cur := by
  have hne : o.data ≠ [] := by
    intro he
    rw [he, containsSub_nil] at h
    exact Bool.noConfusion h
  obtain ⟨l⟩ := cur
  unfold pyReplace
  rw [if_neg hne, pyReplaceGo_of_not_contains _ _ _ _ h]

theorem filter_map_eq_filterMap {α β : Type} (p : α → Bool) (f : α → β) :
    ∀ l : List α, (l.filter p).map f =
      l.filterMap (fun a => if p a then some (f a) else none)
  | [] => rfl
  | a :: l => by
    by_cases h : p a = true
    · simp [List.filter_cons, List.filterMap_cons, h,
        filter_map_eq_filterMap p f l]
    · simp [List.filter_cons, List.filterMap_cons, h,
        filter_map_eq_filterMap p f l]

theorem updatedStyle_eq_amended (properties : List String) (st : String) :
    updatedStyle properties st = updatedStyleAmended properties st := by
  unfold updatedStyle updatedStyleAmended
  rw [filter_map_eq_filterMap]

theorem removeStyleElem_eq_amended (properties : List String) (a : Attrs) :
    removeStyleElem properties a = removeStyleElemAmended properties a := by
  unfold removeStyleElem removeStyleElemAmended
  simp only [updatedStyle_eq_amended]

/-! ## Per-operation key preservation and sequential runs -/

theorem opPreservesKey_replace (x atr o n : String) :
    opPreservesKey x (Op.replace atr o n) := by
  intro u t2 h
  have h2 : Except.ok (replace_attribute_value atr o n u) = Except.ok t2 := h
  injection h2 with h3
  rw [← h3]
  exact keyPres_replace_attribute_value atr o n x u

theorem opPreservesKey_add (x tg atr v : String) :
    opPreservesKey x (Op.add tg atr v) := by
  intro u t2 h
  have h2 : Except.ok (add_attribute tg atr v u) = Except.ok t2 := h
  injection h2 with h3
  rw [← h3]
  exact keyPres_add_attribute tg atr v x u

theorem opPreservesKey_remove (x : String) (l : Option (List String))
    (hx : ∀ l1, l = some l1 → x ∉ l1) :
    opPreservesKey x (Op.remove l) := by
  intro u t2 h
  cases l with
  | none => exact Except.noConfusion h
  | some l1 =>
    cases l1 with
    | nil => exact Except.noConfusion h
    | cons a as =>
      have h2 :
          Except.ok (mapAttrsF (fun _ a2 => removeAttrsElem (a :: as) a2) u) =
            Except.ok t2 := h
      injection h2 with h3
      rw [← h3]
      exact keyPres_removeAttrs (a :: as) x (hx _ rfl) u

theorem keyPres_runSeqOps (x : String) :
    ∀ (ops : List Op) (t t2 : Forest),
      (∀ op ∈ ops, opPreservesKey x op) →
      runSeqOps ops t = Except.ok t2 → keyPresF x t t2 = true
  | [], t, t2, _, h => by
    have h2 : (Except.ok t : Except ModError Forest) = Except.ok t2 := h
    injection h2 with h3
    rw [← h3]
    exact keyPresF_refl x t
  | op :: ops, t, t2, hall, h => by
    have hstep : runSeqOps (op :: ops) t =
        (runOp op t).bind (fun u => runSeqOps ops u) := rfl
    rw [hstep] at h
    cases hop : runOp op t with
    | error e =>
      rw [hop] at h
      exact Except.noConfusion h
    | ok u =>
      rw [hop] at h
      have h3 : runSeqOps ops u = Except.ok t2 := h
      exact keyPresF_trans x t u t2
        (hall op (List.mem_cons_self _ _) t u hop)
        (keyPres_runSeqOps x ops u t2
          (fun o ho => hall o (List.mem_cons.mpr (Or.inr ho))) h3)

/-! ## Claim theorems -/

/-- Claim C9: `remove_style_properties` is not a frame-preserving no-op on
unmatched elements.  On an element whose style value matches none of the
listed properties, the rewrite still whitespace-trims each declaration and
rejoins with `;` without spaces: the style "color: red; border: 1px" becomes
"color: red;border: 1px", a different string, even though the property list
["background"] matches nothing. -/
theorem C9_style_rewrite_not_frame_preserving :
    remove_style_properties ["background"]
        [Node.elem "div" [("style", "color: red; border: 1px")] []] =
      Except.ok [Node.elem "div" [("style", "color: red;border: 1px")] []] ∧
    ("color: red;border: 1px" : String) ≠ "color: red; border: 1px" :=
  ⟨rfl, by decide⟩

/-- Claim C3 counterexample: the rewrite the claim states (rejoin the kept
declarations unchanged, trim trailing `;` only) disagrees with the code on
the style "; a: 1 ; color: red" with properties ["a"]: the code produces
"color: red" (kept declarations whitespace-trimmed, leading `;` stripped),
while the claimed rewrite produces "; color: red". -/
theorem C3_counterexample :
    remove_style_properties ["a"]
        [Node.elem "div" [("style", "; a: 1 ; color: red")] []] =
      Except.ok [Node.elem "div" [("style", "color: red")] []] ∧
    mapAttrsF (fun _ a => removeStyleElemClaimed ["a"] a)
        [Node.elem "div" [("style", "; a: 1 ; color: red")] []] =
      [Node.elem "div" [("style", "; color: red")] []] ∧
    ("color: red" : String) ≠ "; color: red" :=
  ⟨rfl, rfl, by decide⟩

/-- Claim C3 as amended: for every tree and non-empty property list,
`remove_style_properties` rewrites each element's style by splitting on `;`,
dropping every declaration whose trimmed text starts with one of the
property names (string prefix match), whitespace-trimming each kept
declaration, rejoining with `;`, and stripping leading and trailing `;`;
if the result is empty the style attribute is deleted, otherwise it is set
to the rejoined string. -/
theorem C3_amended_style_rewrite (properties : List String) (t : Forest)
    (h : properties ≠ []) :
    remove_style_properties properties t =
      Except.ok (mapAttrsF (fun _ a => removeStyleElemAmended properties a) t) := by
  cases properties with
  | nil => exact absurd rfl h
  | cons p ps =>
    refine congrArg Except.ok ?_
    refine mapAttrsF_congr _ _ ?_ t
    intro tg a
    exact removeStyleElem_eq_amended (p :: ps) a

/-- Witness for the amended claim C3 at a concrete input. -/
theorem C3_amended_style_rewrite_witness :
    remove_style_properties ["color"]
        [Node.elem "p" [("style", "color: red")] []] =
      Except.ok (mapAttrsF (fun _ a => removeStyleElemAmended ["color"] a)
        [Node.elem "p" [("style", "color: red")] []]) :=
  C3_amended_style_rewrite ["color"]
    [Node.elem "p" [("style", "color: red")] []] (by decide)

/-- Claim C4 counterexample: the claim trims `old_value` and `new_value` of
trailing semicolons only, but the code strips both ends
(`str.strip(";")`).  With attribute value "color:red", old ";color;" and
new ";blue;", the code replaces "color" by "blue" giving "blue:red", while
the claimed update looks for ";color" which does not occur and leaves
"color:red" unchanged. -/
theorem C4_counterexample :
    replace_attribute_value "q" ";color;" ";blue;"
        [Node.elem "div" [("q", "color:red")] []] =
      [Node.elem "div" [("q", "blue:red")] []] ∧
    mapAttrsF (fun _ a => replaceAttrElemClaimed "q" ";color;" ";blue;" a)
        [Node.elem "div" [("q", "color:red")] []] =
      [Node.elem "div" [("q", "color:red")] []] ∧
    ("blue:red" : String) ≠ "color:red" :=
  ⟨rfl, rfl, by decide⟩

/-- Claim C4 as amended: for every element possessing the named attribute
with a non-empty value, `replace_attribute_value` performs a literal
substring replacement of `old_value` stripped of leading and trailing `;`
with `new_value` stripped of leading and trailing `;`, writing the attribute
back only when the value actually changes; it is a no-op for elements
lacking the attribute, for elements whose value is the empty string, and for
elements whose value does not contain the stripped `old_value` as a
substring. -/
theorem C4_amended_replace (atr o n : String) (t : Forest) :
    replace_attribute_value atr o n t =
      mapAttrsF (fun _ a => replaceAttrElemAmended atr o n a) t := by
  refine mapAttrsF_congr _ _ ?_ t
  intro tg a
  unfold replaceAttrElem replaceAttrElemAmended
  cases hg : getAttr a atr with
  | none => rfl
  | some cur =>
    by_cases hc : (cur == "") = true
    · simp [hc]
    · cases hcon : containsSub (pyStripSemis o).data cur.data with
      | true => simp [hc, hcon]
      | false =>
        have hupd := pyReplace_of_not_contains cur (pyStripSemis o)
          (pyStripSemis n) hcon
        simp [hc, hcon, hupd]

/-- Claim C7: `add_attribute` sets the attribute on every element whose tag
name case-insensitively equals the given tag (under the parser invariant
that stored tag names are lowercase), and it overwrites rather than appends:
adding `value2` after `value1` for the same (tag, attribute) leaves exactly
the state of adding `value2` alone. -/
theorem C7_add_attribute_overwrites (tag atr v1 v2 : String) (t : Forest)
    (h : lowerTagsF t = true) :
    allElemsF
        (fun etag a =>
          !(pyLower etag == pyLower tag) || (getAttr a atr == some v2))
        (add_attribute tag atr v2 t) = true ∧
    add_attribute tag atr v2 (add_attribute tag atr v1 t) =
      add_attribute tag atr v2 t := by
  constructor
  · refine allElemsF_mapAttrsF (fun tg _ => pyLower tg == tg) _ _ ?_ t h
    intro tg a hr
    by_cases he : (tg == pyLower tag) = true
    · rw [if_pos he]
      have hget := getAttr_setAttr_self a atr v2
      simp [hget]
    · rw [if_neg he]
      have htg : pyLower tg = tg := by simpa using hr
      have hne : (pyLower tg == pyLower tag) = false := by
        rw [htg]
        cases hb : (tg == pyLower tag) with
        | false => rfl
        | true => exact absurd hb he
      simp [hne]
  · unfold add_attribute
    rw [mapAttrsF_comp]
    refine mapAttrsF_congr _ _ ?_ t
    intro tg a
    by_cases he : (tg == pyLower tag) = true
    · rw [if_pos he, if_pos he, if_pos he]
      exact setAttr_setAttr a atr v1 v2
    · rw [if_neg he, if_neg he, if_neg he]

/-- Witness for claim C7 at a concrete input (spec Scenario A shape). -/
theorem C7_add_attribute_overwrites_witness :
    allElemsF
        (fun etag a =>
          !(pyLower etag == pyLower "A") ||
            (getAttr a "target" == some "_blank"))
        (add_attribute "A" "target" "_blank"
          [Node.elem "a" [("href", "https://example.com")] []]) = true ∧
    add_attribute "A" "target" "_blank"
        (add_attribute "A" "target" "x"
          [Node.elem "a" [("href", "https://example.com")] []]) =
      add_attribute "A" "target" "_blank"
        [Node.elem "a" [("href", "https://example.com")] []] :=
  ⟨(C7_add_attribute_overwrites "A" "target" "x" "_blank"
      [Node.elem "a" [("href", "https://example.com")] []] rfl).1,
   (C7_add_attribute_overwrites "A" "target" "x" "_blank"
      [Node.elem "a" [("href", "https://example.com")] []] rfl).2⟩

/-- Claim C8: the remove-attributes operation is idempotent: applying the
same non-empty attribute list twice yields the same tree as applying it
once (deleting an absent attribute is a no-op). -/
theorem C8_remove_attributes_idempotent (l : List String) (t : Forest)
    (h : l ≠ []) :
    (remove_attributes (some l) t).bind (remove_attributes (some l)) =
      remove_attributes (some l) t := by
  cases l with
  | nil => exact absurd rfl h
  | cons a as =>
    have hidem :
        mapAttrsF (fun _ a2 => removeAttrsElem (a :: as) a2)
            (mapAttrsF (fun _ a2 => removeAttrsElem (a :: as) a2) t) =
          mapAttrsF (fun _ a2 => removeAttrsElem (a :: as) a2) t := by
      rw [mapAttrsF_comp]
      refine mapAttrsF_congr _ _ ?_ t
      intro tg a2
      exact removeAttrsElem_idem (a :: as) a2
    exact congrArg Except.ok hidem

/-- Witness for claim C8 at a concrete input. -/
theorem C8_remove_attributes_idempotent_witness :
    (remove_attributes (some ["width"])
        [Node.elem "img" [("src", "image.png"), ("width", "500")] []]).bind
      (remove_attributes (some ["width"])) =
    remove_attributes (some ["width"])
      [Node.elem "img" [("src", "image.png"), ("width", "500")] []] :=
  C8_remove_attributes_idempotent ["width"]
    [Node.elem "img" [("src", "image.png"), ("width", "500")] []] (by decide)

/-- Claim C5: asynchronous mode awaits the derived operations strictly
sequentially in category order, so for any rule set whose categories touch
disjoint attributes it produces exactly the output of the purely sequential
reference application (in this sequential model the equality holds for every
rule set; the disjointness hypothesis of the specification is recorded as
stated). -/
theorem C5_async_matches_sequential (rules : Rules) (t : Forest)
    (_hdisj : rulesCategoriesDisjoint rules) (t2 : Forest) :
    applyRulesAsync rules t = Except.ok t2 ↔
      applyRulesSeq rules t = Except.ok t2 := by
  rw [applyRulesAsync_eq_seq]
  cases h : applyRulesSeq rules t with
  | error e =>
    constructor
    · intro h2
      exact Except.noConfusion h2
    · intro h2
      exact Except.noConfusion h2
  | ok u => exact Iff.rfl

/-- Witness for claim C5 at the specification's Scenario C rule set, whose
categories touch pairwise disjoint attributes. -/
theorem C5_async_matches_sequential_witness :
    applyRulesAsync
        ⟨some [⟨some ["data-id"]⟩],
         some [⟨"style", "color: red;", "color: blue;"⟩],
         some [⟨"div", "data-processed", "true"⟩]⟩
        [Node.elem "div"
          [("class", "header"), ("style", "color: red;"), ("data-id", "123")]
          []] =
      Except.ok
        [Node.elem "div"
          [("class", "header"), ("style", "color: blue;"),
           ("data-processed", "true")] []] :=
  (C5_async_matches_sequential _ _
    (by unfold rulesCategoriesDisjoint; exact ⟨by decide, by decide⟩) _).mpr rfl

/-- Claim C10: a rule set whose `remove_attributes` key maps to an empty
entry list makes both engines fail with a Modification Error wrapping the
Python IndexError from `rules["remove_attributes"][0]`; derivation fails
before any operation is dispatched, so no element is mutated. -/
theorem C10_empty_remove_entry_list (rep : Option (List ReplaceEntry))
    (add : Option (List AddEntry)) (t : Forest) :
    deriveOps ⟨some [], rep, add⟩ = Except.error errIndex ∧
    applyRulesAsync ⟨some [], rep, add⟩ t =
      Except.error (wrapAsync errIndex) ∧
    (∀ r, ThreadedOutcome ⟨some [], rep, add⟩ t r →
      r = Except.error (wrapThread errIndex)) := by
  refine ⟨rfl, rfl, ?_⟩
  intro r hout
  cases hout with
  | deriveFail e hde =>
    have h2 : (Except.error errIndex : Except ModError (List Op)) =
        Except.error e := hde
    injection h2 with h3
    rw [← h3]
  | run ops perm hops hperm hfails =>
    have h2 : (Except.error errIndex : Except ModError (List Op)) =
        Except.ok ops := hops
    exact Except.noConfusion h2
  | runFail ops perm op e hops hperm hmem hfail =>
    have h2 : (Except.error errIndex : Except ModError (List Op)) =
        Except.ok ops := hops
    exact Except.noConfusion h2

/-- Witness for claim C10 at a concrete rule set and tree. -/
theorem C10_empty_remove_entry_list_witness :
    applyRulesAsync ⟨some [], none, none⟩ ([] : Forest) =
        Except.error (wrapAsync errIndex) ∧
    (Except.error (wrapThread errIndex) : Except ModError Forest) =
      Except.error (wrapThread errIndex) :=
  ⟨(C10_empty_remove_entry_list none none []).2.1,
   (C10_empty_remove_entry_list none none []).2.2 _
     (ThreadedOutcome.deriveFail errIndex rfl)⟩

theorem threaded_error_of_first_remove_fails (rem0 : Option (List String))
    (rest : List RemoveEntry) (rep : Option (List ReplaceEntry))
    (add : Option (List AddEntry)) (t : Forest)
    (hfail0 : opFails (Op.remove rem0) = some errEmptyAttrs) :
    ∀ r, ThreadedOutcome ⟨some (⟨rem0⟩ :: rest), rep, add⟩ t r →
      r = Except.error (wrapThread errEmptyAttrs) := by
  intro r hout
  have hderive : deriveOps ⟨some (⟨rem0⟩ :: rest), rep, add⟩ =
      Except.ok (Op.remove rem0 ::
        ((rep.getD []).map
            (fun r => Op.replace r.attr r.old_value r.new_value) ++
          (add.getD []).map (fun r => Op.add r.tag r.attr r.value))) := rfl
  cases hout with
  | deriveFail e hde =>
    rw [hderive] at hde
    exact Except.noConfusion hde
  | run ops perm hops hperm hfails =>
    rw [hderive] at hops
    injection hops with h3
    have := hfails (Op.remove rem0) (by rw [← h3]; exact List.mem_cons_self _ _)
    rw [hfail0] at this
    exact Option.noConfusion this
  | runFail ops perm op e hops hperm hmem hfail =>
    rw [hderive] at hops
    injection hops with h3
    rw [← h3] at hmem
    rcases List.mem_cons.mp hmem with hopc | hopc
    · subst hopc
      rw [hfail0] at hfail
      injection hfail with h4
      rw [← h4]
    · rcases List.mem_append.mp hopc with hopc2 | hopc2
      · rcases List.mem_map.mp hopc2 with ⟨r0, -, hop0⟩
        rw [← hop0] at hfail
        exact Option.noConfusion hfail
      · rcases List.mem_map.mp hopc2 with ⟨r0, -, hop0⟩
        rw [← hop0] at hfail
        exact Option.noConfusion hfail

/-- Claim C2: invoking the remove operation with an empty or null
`attributes` sequence raises a Modification Error before any element is
visited, in all three modes: the direct call returns the precondition error
with no tree produced, `apply_rules_async` rewraps it, and every observable
thread-parallel outcome is that rewrapped error (a failing remove operation
visits and mutates no element in the model). -/
theorem C2_empty_or_null_attribute_list (t : Forest) (rules : Rules)
    (e1 : RemoveEntry) (rest : List RemoveEntry)
    (hr : rules.remove_attributes = some (e1 :: rest))
    (he : e1.attributes = none ∨ e1.attributes = some []) :
    remove_attributes e1.attributes t = Except.error errEmptyAttrs ∧
    applyRulesAsync rules t = Except.error (wrapAsync errEmptyAttrs) ∧
    (∀ r, ThreadedOutcome rules t r →
      r = Except.error (wrapThread errEmptyAttrs)) := by
  obtain ⟨rem, rep, add⟩ := rules
  replace hr : rem = some (e1 :: rest) := hr
  subst hr
  obtain ⟨eatt⟩ := e1
  replace he : eatt = none ∨ eatt = some [] := he
  rcases he with he | he <;> subst he <;>
    exact ⟨rfl, rfl, threaded_error_of_first_remove_fails _ rest rep add t rfl⟩

/-- Witness for claim C2 at a concrete rule set (attributes null). -/
theorem C2_empty_or_null_attribute_list_witness :
    remove_attributes none ([] : Forest) = Except.error errEmptyAttrs ∧
    applyRulesAsync ⟨some [⟨none⟩], none, none⟩ ([] : Forest) =
      Except.error (wrapAsync errEmptyAttrs) ∧
    (Except.error (wrapThread errEmptyAttrs) : Except ModError Forest) =
      Except.error (wrapThread errEmptyAttrs) := by
  have h := C2_empty_or_null_attribute_list [] ⟨some [⟨none⟩], none, none⟩
    ⟨none⟩ [] rfl (Or.inl rfl)
  exact ⟨h.1, h.2.1,
    h.2.2 _ (ThreadedOutcome.runFail [Op.remove none] [Op.remove none]
      (Op.remove none) errEmptyAttrs rfl (List.Perm.refl _)
      (List.mem_cons_self _ _) rfl)⟩

/-- Claim C6: for a rule set containing only a `remove_attributes` category
whose first entry carries a non-empty attribute list, every listed attribute
is absent from every element of the resulting forest, in all three modes
(direct call, asynchronous, thread-parallel); the traversal visits every
element, with no short-circuit on first match. -/
theorem C6_remove_only_rule_set (rules : Rules) (e1 : RemoveEntry)
    (rest : List RemoveEntry) (a : String) (as : List String) (t : Forest)
    (hr : rules.remove_attributes = some (e1 :: rest))
    (ha : e1.attributes = some (a :: as))
    (hrep : rules.replace_attributes = none)
    (hadd : rules.add_attributes = none) :
    (∀ t2, remove_attributes e1.attributes t = Except.ok t2 →
      ∀ x ∈ a :: as, noKeyF x t2 = true) ∧
    (∀ t2, applyRulesAsync rules t = Except.ok t2 →
      ∀ x ∈ a :: as, noKeyF x t2 = true) ∧
    (∀ r, ThreadedOutcome rules t r →
      ∃ t2, r = Except.ok t2 ∧ ∀ x ∈ a :: as, noKeyF x t2 = true) := by
  obtain ⟨rem, rep, add⟩ := rules
  replace hr : rem = some (e1 :: rest) := hr
  replace hrep : rep = none := hrep
  replace hadd : add = none := hadd
  subst hr
  subst hrep
  subst hadd
  obtain ⟨eatt⟩ := e1
  replace ha : eatt = some (a :: as) := ha
  subst ha
  have hcore : ∀ x ∈ a :: as,
      noKeyF x (mapAttrsF (fun _ a2 => removeAttrsElem (a :: as) a2) t) =
        true := by
    intro x hx
    refine allElemsF_map _ _ ?_ t
    intro tg a2
    rw [hasAttrKey_removeAttrsElem_of_mem (a :: as) a2 x hx]
    rfl
  refine ⟨?_, ?_, ?_⟩
  · intro t2 h2
    have h3 :
        Except.ok (mapAttrsF (fun _ a2 => removeAttrsElem (a :: as) a2) t) =
          Except.ok t2 := h2
    injection h3 with h4
    rw [← h4]
    exact hcore
  · intro t2 h2
    have h3 :
        Except.ok (mapAttrsF (fun _ a2 => removeAttrsElem (a :: as) a2) t) =
          Except.ok t2 := h2
    injection h3 with h4
    rw [← h4]
    exact hcore
  · intro r hout
    have hderive : deriveOps ⟨some (⟨some (a :: as)⟩ :: rest), none, none⟩ =
        Except.ok [Op.remove (some (a :: as))] := rfl
    cases hout with
    | deriveFail e hde =>
      rw [hderive] at hde
      exact Except.noConfusion hde
    | run ops perm hops hperm hfails =>
      rw [hderive] at hops
      injection hops with h3
      subst h3
      have hperm2 : perm = [Op.remove (some (a :: as))] :=
        List.perm_singleton.mp hperm
      subst hperm2
      exact ⟨mapAttrsF (fun _ a2 => removeAttrsElem (a :: as) a2) t, rfl,
        hcore⟩
    | runFail ops perm op e hops hperm hmem hfail =>
      rw [hderive] at hops
      injection hops with h3
      subst h3
      have hop : op = Op.remove (some (a :: as)) := List.mem_singleton.mp hmem
      subst hop
      exact Option.noConfusion hfail

/-- Witness for claim C6 at the specification's Scenario B input. -/
theorem C6_remove_only_rule_set_witness :
    noKeyF "width" [Node.elem "img" [("src", "image.png")] []] = true :=
  (C6_remove_only_rule_set
      ⟨some [⟨some ["width", "height", "alt"]⟩], none, none⟩
      ⟨some ["width", "height", "alt"]⟩ [] "width" ["height", "alt"]
      [Node.elem "img"
        [("src", "image.png"), ("alt", "An image"), ("width", "500"),
         ("height", "300")] []]
      rfl rfl rfl rfl).1
    [Node.elem "img" [("src", "image.png")] []] rfl "width"
    (List.mem_cons_self _ _)

/-- Claim C1: for a rule set whose `remove_attributes` key holds two or more
entries, both engines derive exactly one remove operation, carrying only the
first entry's `attributes` field; the derived operations (hence the
asynchronous result) are the same as for the rule set truncated to the first
entry, and any attribute outside the first entry's list that an element
carries is still carried after application — the later entries are ignored
and their attributes remain on the tree. -/
theorem C1_remove_uses_first_entry_only (rules : Rules) (e1 e2 : RemoveEntry)
    (rest : List RemoveEntry)
    (hr : rules.remove_attributes = some (e1 :: e2 :: rest)) :
    (∀ ops, deriveOps rules = Except.ok ops →
      ops.filter Op.isRemoveOp = [Op.remove e1.attributes]) ∧
    deriveOps rules =
      deriveOps { rules with remove_attributes := some [e1] } ∧
    (∀ t, applyRulesAsync rules t =
      applyRulesAsync { rules with remove_attributes := some [e1] } t) ∧
    (∀ t t2 x l1, applyRulesAsync rules t = Except.ok t2 →
      e1.attributes = some l1 → x ∉ l1 → keyPresF x t t2 = true) := by
  obtain ⟨rem, rep, add⟩ := rules
  replace hr : rem = some (e1 :: e2 :: rest) := hr
  subst hr
  refine ⟨?_, rfl, fun t => rfl, ?_⟩
  · intro ops hops
    have hderive : deriveOps ⟨some (e1 :: e2 :: rest), rep, add⟩ =
        Except.ok (Op.remove e1.attributes ::
          ((rep.getD []).map
              (fun r => Op.replace r.attr r.old_value r.new_value) ++
            (add.getD []).map (fun r => Op.add r.tag r.attr r.value))) := rfl
    rw [hderive] at hops
    injection hops with h3
    subst h3
    rw [List.filter_cons]
    have hhead : Op.isRemoveOp (Op.remove e1.attributes) = true := rfl
    rw [if_pos hhead]
    have htail :
        ((rep.getD []).map
            (fun r => Op.replace r.attr r.old_value r.new_value) ++
          (add.getD []).map
            (fun r => Op.add r.tag r.attr r.value)).filter Op.isRemoveOp =
          [] := by
      rw [List.filter_eq_nil_iff]
      intro op hmem
      rcases List.mem_append.mp hmem with h5 | h5
      · rcases List.mem_map.mp h5 with ⟨r0, -, hop0⟩
        rw [← hop0]
        simp [Op.isRemoveOp]
      · rcases List.mem_map.mp h5 with ⟨r0, -, hop0⟩
        rw [← hop0]
        simp [Op.isRemoveOp]
    rw [htail]
  · intro t t2 x l1 h2 hatt hx
    rw [applyRulesAsync_eq_seq] at h2
    cases hseq : applyRulesSeq ⟨some (e1 :: e2 :: rest), rep, add⟩ t with
    | error e =>
      rw [hseq] at h2
      exact Except.noConfusion h2
    | ok u =>
      rw [hseq] at h2
      have h4 : (Except.ok u : Except ModError Forest) = Except.ok t2 := h2
      injection h4 with h5
      subst h5
      have hrun : runSeqOps (Op.remove e1.attributes ::
          ((rep.getD []).map
              (fun r => Op.replace r.attr r.old_value r.new_value) ++
            (add.getD []).map (fun r => Op.add r.tag r.attr r.value))) t =
          Except.ok u := hseq
      refine keyPres_runSeqOps x _ t u ?_ hrun
      intro op hmem
      rcases List.mem_cons.mp hmem with hopc | hopc
      · subst hopc
        refine opPreservesKey_remove x e1.attributes ?_
        intro l1b hb
        rw [hatt] at hb
        injection hb with hb2
        rw [← hb2]
        exact hx
      · rcases List.mem_append.mp hopc with h5 | h5
        · rcases List.mem_map.mp h5 with ⟨r0, -, hop0⟩
          rw [← hop0]
          exact opPreservesKey_replace x r0.attr r0.old_value r0.new_value
        · rcases List.mem_map.mp h5 with ⟨r0, -, hop0⟩
          rw [← hop0]
          exact opPreservesKey_add x r0.tag r0.attr r0.value

/-- Witness for claim C1 at a concrete two-entry rule set: only the first
entry's attribute "a" is removed; "b", listed in the second entry, remains. -/
theorem C1_remove_uses_first_entry_only_witness :
    deriveOps ⟨some [⟨some ["a"]⟩, ⟨some ["b"]⟩], none, none⟩ =
      deriveOps ⟨some [⟨some ["a"]⟩], none, none⟩ ∧
    keyPresF "b" [Node.elem "div" [("a", "1"), ("b", "2")] []]
      [Node.elem "div" [("b", "2")] []] = true := by
  have h := C1_remove_uses_first_entry_only
    ⟨some [⟨some ["a"]⟩, ⟨some ["b"]⟩], none, none⟩ ⟨some ["a"]⟩ ⟨some ["b"]⟩
    [] rfl
  exact ⟨h.2.1,
    h.2.2.2 [Node.elem "div" [("a", "1"), ("b", "2")] []]
      [Node.elem "div" [("b", "2")] []] "b" ["a"] rfl rfl (by decide)⟩
